import Mathlib

/-!
Verification of the CPU non-maximum-suppression (NMS) kernel of
`maskrcnn_benchmark/csrc/cpu/nms_cpu.cpp`.

The kernel receives `dets` (an N×4 tensor of box corners), a parallel
`scores` tensor and a `threshold`.  We embed boxes as a structure of four
rational coordinates, tensors as Lean lists, and the raw pointer reads of
the C++ loops (`order[_i]`, `suppressed[j]`, `x1[j]`, ...) as `List.get?`
lookups whose failure (`none`) models an out-of-bounds access.  The
floating-point scalars of the kernel are modelled by `ℚ`.
-/

/-- A detection box, one row of the `dets` tensor: corners `(x1, y1)` and
`(x2, y2)` as in the column selects `dets.select(1, k)` of the kernel. -/
structure Box where
  x1 : ℚ
  y1 : ℚ
  x2 : ℚ
  y2 : ℚ
deriving DecidableEq

instance : Inhabited Box := ⟨⟨0, 0, 0, 0⟩⟩

/-- The per-box area `(x2 - x1 + 1) * (y2 - y1 + 1)` computed by the kernel
into `areas_t`. -/
def area (b : Box) : ℚ := (b.x2 - b.x1 + 1) * (b.y2 - b.y1 + 1)

/-- Intersection area of two boxes, exactly as the inner loop computes it:
`xx1 = max(ix1, x1[j])`, ..., `w = max(0, xx2 - xx1 + 1)`,
`h = max(0, yy2 - yy1 + 1)`, `inter = w * h`. -/
def inter (a b : Box) : ℚ :=
  let xx1 := max a.x1 b.x1
  let yy1 := max a.y1 b.y1
  let xx2 := min a.x2 b.x2
  let yy2 := min a.y2 b.y2
  let w := max 0 (xx2 - xx1 + 1)
  let h := max 0 (yy2 - yy1 + 1)
  w * h

/-- The overlap ratio `ovr = inter / (iarea + areas[j] - inter)` of the
inner loop (intersection over union). -/
def ovr (a b : Box) : ℚ := inter a b / (area a + area b - inter a b)

/-- The index permutation `order_t = std::get<1>(scores.sort(0, descending))`:
indices of `scores` sorted by descending score.  The ATen sort is some
deterministic sort; we model it as a stable insertion sort on indices
(ties keep the original index order). -/
def argsortDesc (scores : List ℚ) : List ℕ :=
  List.insertionSort (fun a b => scores.getD b 0 ≤ scores.getD a 0)
    (List.range scores.length)

/-- The inner loop `for (_j = _i + 1; _j < ndets; _j++)` of the kernel, run
for a fixed unsuppressed reference box `bi`.  `qs` is the list of remaining
inner positions `_j`; `sup` is the `suppressed` byte array.  Pointer reads
are `get?` lookups; `none` models an out-of-bounds access. -/
def innerLoop (boxes : List Box) (order : List ℕ) (threshold : ℚ) (bi : Box) :
    List ℕ → List Bool → Option (List Bool)
  | [], sup => some sup
  | q :: qs, sup =>
    match order.get? q with
    | none => none
    | some j =>
      match sup.get? j with
      | none => none
      | some true => innerLoop boxes order threshold bi qs sup
      | some false =>
        match boxes.get? j with
        | none => none
        | some bj =>
          if threshold ≤ ovr bi bj then
            innerLoop boxes order threshold bi qs (sup.set j true)
          else
            innerLoop boxes order threshold bi qs sup

/-- The outer loop `for (_i = 0; _i < ndets; _i++)` of the kernel.  `ps` is
the list of remaining outer positions `_i`; for each unsuppressed reference
`i = order[_i]` it runs the inner loop over positions `_i + 1 .. ndets - 1`. -/
def outerLoop (boxes : List Box) (order : List ℕ) (threshold : ℚ) (ndets : ℕ) :
    List ℕ → List Bool → Option (List Bool)
  | [], sup => some sup
  | p :: ps, sup =>
    match order.get? p with
    | none => none
    | some i =>
      match sup.get? i with
      | none => none
      | some true => outerLoop boxes order threshold ndets ps sup
      | some false =>
        match boxes.get? i with
        | none => none
        | some bi =>
          match innerLoop boxes order threshold bi
              (List.range' (p + 1) (ndets - (p + 1))) sup with
          | none => none
          | some sup' => outerLoop boxes order threshold ndets ps sup'

/-- The result extraction `at::nonzero(suppressed_t == 0).squeeze(1)`:
the indices whose suppressed flag is still `false`, in ascending order. -/
def keptIndices (sup : List Bool) : List ℕ :=
  (List.range sup.length).filter (fun k => !sup.getD k true)

/-- The kernel `nms_cpu_kernel<scalar_t>(dets, scores, threshold)`.
`boxes` plays the role of `dets` (one entry per row), so `ndets =
boxes.length` and the `dets.numel() == 0` fast path is `boxes = []`.
The kernel performs no box/score length check; `none` models the
out-of-bounds pointer accesses a length mismatch can cause. -/
def nms_cpu_kernel (boxes : List Box) (scores : List ℚ) (threshold : ℚ) :
    Option (List ℕ) :=
  if boxes.isEmpty then some []
  else
    (outerLoop boxes (argsortDesc scores) threshold boxes.length
        (List.range boxes.length)
        (List.replicate boxes.length false)).map keptIndices

/-- The dispatching wrapper `nms_cpu`: `AT_DISPATCH_FLOATING_TYPES` merely
selects the scalar type and calls the kernel. -/
def nms_cpu (dets : List Box) (scores : List ℚ) (threshold : ℚ) :
    Option (List ℕ) :=
  nms_cpu_kernel dets scores threshold

/-!
Specification-side model, from the words of the spec (§4.1 "Suppression
Engine", contract `suppress(boxes, scores, threshold) -> sequence of index`).
The spec speaks of plain total sequences, so lookups are `getD`; the
formulas for area, intersection and IoU are stated in the spec with exactly
the same expressions the kernel uses (`specArea`, `specInter`, `specIou`
below restate them from the spec's text).
-/

/-- Spec §3: "Area: derived value per box, computed once as
`(x2 - x1 + 1) * (y2 - y1 + 1)`". -/
def specArea (b : Box) : ℚ := (b.x2 - b.x1 + 1) * (b.y2 - b.y1 + 1)

/-- Spec §4.1 step 4: intersection rectangle `xx1 = max(x1_i, x1_j)`, ...,
then `w = max(0, xx2 - xx1 + 1)`, `h = max(0, yy2 - yy1 + 1)`,
`inter = w * h`. -/
def specInter (a b : Box) : ℚ :=
  let xx1 := max a.x1 b.x1
  let yy1 := max a.y1 b.y1
  let xx2 := min a.x2 b.x2
  let yy2 := min a.y2 b.y2
  max 0 (xx2 - xx1 + 1) * max 0 (yy2 - yy1 + 1)

/-- Spec §4.1 step 4: "Compute IoU: `ovr = inter / (area_i + area_j - inter)`". -/
def specIou (a b : Box) : ℚ := specInter a b / (specArea a + specArea b - specInter a b)

/-- Spec §4.1 step 4, inner part: "For every later position `q > p` with box
index `j = order[q]`: if `suppressed[j]` is true, skip; ... if
`ovr >= threshold`, set `suppressed[j] = true`."  Total state-passing form;
`qs` is the list of later positions. -/
def specInnerLoop (boxes : List Box) (order : List ℕ) (threshold : ℚ) (bi : Box) :
    List ℕ → List Bool → List Bool
  | [], sup => sup
  | q :: qs, sup =>
    let j := order.getD q 0
    if sup.getD j true then specInnerLoop boxes order threshold bi qs sup
    else if threshold ≤ specIou bi (boxes.getD j default) then
      specInnerLoop boxes order threshold bi qs (sup.set j true)
    else
      specInnerLoop boxes order threshold bi qs sup

/-- Spec §4.1 step 4, outer part: "Iterate `order` in sequence; for each
position `p` with box index `i = order[p]`: if `suppressed[i]` is true,
skip...; otherwise `i` is retained as a reference box" and the inner loop
runs over the later positions. -/
def specOuterLoop (boxes : List Box) (order : List ℕ) (threshold : ℚ) (ndets : ℕ) :
    List ℕ → List Bool → List Bool
  | [], sup => sup
  | p :: ps, sup =>
    let i := order.getD p 0
    if sup.getD i true then specOuterLoop boxes order threshold ndets ps sup
    else
      specOuterLoop boxes order threshold ndets ps
        (specInnerLoop boxes order threshold (boxes.getD i default)
          (List.range' (p + 1) (ndets - (p + 1))) sup)

/-- The flag state after the spec's double loop (§4.1 steps 2-4), starting
from all-false flags and visiting all positions in ranking order. -/
def finalFlags (boxes : List Box) (scores : List ℚ) (threshold : ℚ) : List Bool :=
  specOuterLoop boxes (argsortDesc scores) threshold boxes.length
    (List.range boxes.length) (List.replicate boxes.length false)

/-- Spec §4.1 contract `suppress(boxes, scores, threshold) -> sequence of
index`: if N = 0 the result is empty; otherwise steps 1-5 followed by the
Result Extractor (§4.2): emit indices with an unset flag in ascending
order. -/
def suppress (boxes : List Box) (scores : List ℚ) (threshold : ℚ) : List ℕ :=
  if boxes.isEmpty then []
  else keptIndices (finalFlags boxes scores threshold)

/-- `gather d l idx` selects the entries of `l` at the positions listed in
`idx` (the "kept boxes" of a previous run, in the idempotence property of
the spec §8). -/
def gather (d : α) (l : List α) (idx : List ℕ) : List α :=
  idx.map (fun k => l.getD k d)

/-! ### Basic lemmas about lookups, the argsort and the result extractor -/

lemma getD_bool_eq {l : List Bool} {k : ℕ} (h : k < l.length) (d d' : Bool) :
    l.getD k d = l.getD k d' := by
  rw [List.getD_eq_getElem _ d h, List.getD_eq_getElem _ _ h]

lemma getD_set_true_of {l : List Bool} {j k : ℕ}
    (h : l.getD k false = true) : (l.set j true).getD k false = true := by
  by_cases hk : k < l.length
  · by_cases hjk : j = k
    · subst hjk
      rw [List.getD_eq_getElem _ _ (by simpa using hk)]
      simp
    · rw [List.getD_eq_getElem?_getD, List.getElem?_set_ne hjk,
        ← List.getD_eq_getElem?_getD]
      exact h
  · rw [List.getD_eq_getElem?_getD, List.getElem?_eq_none (by omega)] at h
    simp at h
lemma getD_set_true_cases {l : List Bool} {j k : ℕ}
    (h : (l.set j true).getD k false = true) :
    l.getD k false = true ∨ k = j := by
  by_cases hjk : k = j
  · exact Or.inr hjk
  · left
    rwa [List.getD_eq_getElem?_getD, List.getElem?_set_ne (fun hh => hjk hh.symm),
      ← List.getD_eq_getElem?_getD] at h

lemma argsortDesc_perm (scores : List ℚ) :
    (argsortDesc scores).Perm (List.range scores.length) :=
  List.perm_insertionSort _ _

lemma argsortDesc_length (scores : List ℚ) :
    (argsortDesc scores).length = scores.length := by
  simpa using (argsortDesc_perm scores).length_eq

lemma mem_argsortDesc {scores : List ℚ} {j : ℕ} :
    j ∈ argsortDesc scores ↔ j < scores.length := by
  rw [(argsortDesc_perm scores).mem_iff, List.mem_range]

lemma argsortDesc_nodup (scores : List ℚ) : (argsortDesc scores).Nodup :=
  ((argsortDesc_perm scores).nodup_iff).mpr (List.nodup_range _)

lemma argsortDesc_sorted (scores : List ℚ) :
    (argsortDesc scores).Pairwise (fun a b => scores.getD b 0 ≤ scores.getD a 0) := by
  have ht : IsTotal ℕ (fun a b => scores.getD b 0 ≤ scores.getD a 0) :=
    ⟨fun a b => le_total _ _⟩
  have htr : IsTrans ℕ (fun a b => scores.getD b 0 ≤ scores.getD a 0) :=
    ⟨fun _ _ _ hab hbc => le_trans hbc hab⟩
  exact @List.sorted_insertionSort ℕ _ _ ht htr _

lemma argsortDesc_head_max (scores : List ℚ) (k : ℕ) (hk : k < scores.length) :
    scores.getD k 0 ≤ scores.getD ((argsortDesc scores).headD 0) 0 := by
  have hmem : k ∈ argsortDesc scores := mem_argsortDesc.mpr hk
  rcases ho : argsortDesc scores with _ | ⟨o0, t⟩
  · rw [ho] at hmem; simp at hmem
  · rw [ho] at hmem
    simp only [List.headD_cons]
    rcases List.mem_cons.mp hmem with h0 | hmemt
    · subst h0; exact le_refl _
    · have := argsortDesc_sorted scores
      rw [ho] at this
      exact List.rel_of_pairwise_cons this hmemt

lemma mem_keptIndices {sup : List Bool} {k : ℕ} :
    k ∈ keptIndices sup ↔ k < sup.length ∧ sup.getD k false = false := by
  unfold keptIndices
  simp only [List.mem_filter, List.mem_range, Bool.not_eq_true']
  constructor
  · rintro ⟨hk, hf⟩
    exact ⟨hk, by rwa [getD_bool_eq hk false true]⟩
  · rintro ⟨hk, hf⟩
    exact ⟨hk, by rwa [getD_bool_eq hk true false]⟩

lemma keptIndices_sorted (sup : List Bool) :
    (keptIndices sup).Pairwise (· < ·) :=
  (List.pairwise_lt_range _).filter _

lemma keptIndices_nodup (sup : List Bool) : (keptIndices sup).Nodup :=
  (List.nodup_range _).filter _

lemma keptIndices_length_le (sup : List Bool) :
    (keptIndices sup).length ≤ sup.length :=
  le_trans (List.length_filter_le _ _) (by simp)

lemma keptIndices_replicate_false (n : ℕ) :
    keptIndices (List.replicate n false) = List.range n := by
  unfold keptIndices
  simp only [List.length_replicate]
  apply List.filter_eq_self.mpr
  intro a ha
  rw [List.mem_range] at ha
  simp [List.getD_eq_getElem?_getD, List.getElem?_replicate, ha]

lemma specInnerLoop_length (boxes : List Box) (order : List ℕ) (thr : ℚ) (bi : Box) :
    ∀ (qs : List ℕ) (sup : List Bool),
      (specInnerLoop boxes order thr bi qs sup).length = sup.length
  | [], _ => rfl
  | q :: qs, sup => by
    simp only [specInnerLoop]
    split_ifs
    · exact specInnerLoop_length boxes order thr bi qs sup
    · rw [specInnerLoop_length boxes order thr bi qs _, List.length_set]
    · exact specInnerLoop_length boxes order thr bi qs sup

lemma specOuterLoop_length (boxes : List Box) (order : List ℕ) (thr : ℚ) (ndets : ℕ) :
    ∀ (ps : List ℕ) (sup : List Bool),
      (specOuterLoop boxes order thr ndets ps sup).length = sup.length
  | [], _ => rfl
  | p :: ps, sup => by
    simp only [specOuterLoop]
    split_ifs
    · exact specOuterLoop_length boxes order thr ndets ps sup
    · rw [specOuterLoop_length boxes order thr ndets ps _,
        specInnerLoop_length]

lemma finalFlags_length (boxes : List Box) (scores : List ℚ) (thr : ℚ) :
    (finalFlags boxes scores thr).length = boxes.length := by
  unfold finalFlags
  rw [specOuterLoop_length, List.length_replicate]

/-! ### Refinement: the kernel agrees with the spec-side model on
well-formed (equal-length) inputs -/

lemma specIou_eq_ovr (a b : Box) : specIou a b = ovr a b := rfl

lemma innerLoop_eq_spec (boxes : List Box) (order : List ℕ) (thr : ℚ) (bi : Box) :
    ∀ (qs : List ℕ) (sup : List Bool),
      (∀ j ∈ order, j < sup.length) → (∀ j ∈ order, j < boxes.length) →
      (∀ q ∈ qs, q < order.length) →
      innerLoop boxes order thr bi qs sup =
        some (specInnerLoop boxes order thr bi qs sup)
  | [], _, _, _, _ => rfl
  | q :: qs, sup, hso, hbo, hqs => by
    have hq : q < order.length := hqs q (List.mem_cons_self _ _)
    have hqs' : ∀ q' ∈ qs, q' < order.length :=
      fun q' hq' => hqs q' (List.mem_cons_of_mem _ hq')
    have hjm : order[q] ∈ order := List.getElem_mem hq
    have hjs : order[q] < sup.length := hso _ hjm
    have hjb : order[q] < boxes.length := hbo _ hjm
    have hog : order.get? q = some order[q] := by
      rw [List.get?_eq_getElem?, List.getElem?_eq_getElem hq]
    have hgd : order.getD q 0 = order[q] := List.getD_eq_getElem _ _ hq
    have hsg : sup.get? order[q] = some sup[order[q]] := by
      rw [List.get?_eq_getElem?, List.getElem?_eq_getElem hjs]
    have hbg : boxes.get? order[q] = some boxes[order[q]] := by
      rw [List.get?_eq_getElem?, List.getElem?_eq_getElem hjb]
    have hsgd : sup.getD order[q] true = sup[order[q]] := List.getD_eq_getElem _ _ hjs
    have hbgd : boxes.getD order[q] default = boxes[order[q]] :=
      List.getD_eq_getElem _ _ hjb
    simp only [innerLoop, specInnerLoop, hog, hgd, hsg, hsgd, hbg, hbgd,
      specIou_eq_ovr]
    cases hb : sup[order[q]] with
    | true =>
      simp only [if_true]
      exact innerLoop_eq_spec boxes order thr bi qs sup hso hbo hqs'
    | false =>
      simp only [Bool.false_eq_true, if_false]
      split_ifs with hthr
      · exact innerLoop_eq_spec boxes order thr bi qs _
          (fun j hj => by rw [List.length_set]; exact hso j hj) hbo hqs'
      · exact innerLoop_eq_spec boxes order thr bi qs sup hso hbo hqs'

lemma outerLoop_eq_spec (boxes : List Box) (order : List ℕ) (thr : ℚ) (ndets : ℕ)
    (hnd : ndets ≤ order.length) :
    ∀ (ps : List ℕ) (sup : List Bool),
      (∀ j ∈ order, j < sup.length) → (∀ j ∈ order, j < boxes.length) →
      (∀ p ∈ ps, p < order.length) →
      outerLoop boxes order thr ndets ps sup =
        some (specOuterLoop boxes order thr ndets ps sup)
  | [], _, _, _, _ => rfl
  | p :: ps, sup, hso, hbo, hps => by
    have hp : p < order.length := hps p (List.mem_cons_self _ _)
    have hps' : ∀ p' ∈ ps, p' < order.length :=
      fun p' hp' => hps p' (List.mem_cons_of_mem _ hp')
    have him : order[p] ∈ order := List.getElem_mem hp
    have his : order[p] < sup.length := hso _ him
    have hib : order[p] < boxes.length := hbo _ him
    have hog : order.get? p = some order[p] := by
      rw [List.get?_eq_getElem?, List.getElem?_eq_getElem hp]
    have hgd : order.getD p 0 = order[p] := List.getD_eq_getElem _ _ hp
    have hsg : sup.get? order[p] = some sup[order[p]] := by
      rw [List.get?_eq_getElem?, List.getElem?_eq_getElem his]
    have hbg : boxes.get? order[p] = some boxes[order[p]] := by
      rw [List.get?_eq_getElem?, List.getElem?_eq_getElem hib]
    have hsgd : sup.getD order[p] true = sup[order[p]] := List.getD_eq_getElem _ _ his
    have hbgd : boxes.getD order[p] default = boxes[order[p]] :=
      List.getD_eq_getElem _ _ hib
    have hinner : ∀ q ∈ List.range' (p + 1) (ndets - (p + 1)), q < order.length := by
      intro q hq
      rw [List.mem_range'] at hq
      obtain ⟨i, hi, rfl⟩ := hq
      omega
    simp only [outerLoop, specOuterLoop, hog, hgd, hsg, hsgd, hbg, hbgd]
    cases hb : sup[order[p]] with
    | true =>
      simp only [if_true]
      exact outerLoop_eq_spec boxes order thr ndets hnd ps sup hso hbo hps'
    | false =>
      simp only [Bool.false_eq_true, if_false]
      rw [innerLoop_eq_spec boxes order thr _ _ sup hso hbo hinner]
      exact outerLoop_eq_spec boxes order thr ndets hnd ps _
        (fun j hj => by rw [specInnerLoop_length]; exact hso j hj) hbo hps'

lemma nms_cpu_kernel_eq_suppress (boxes : List Box) (scores : List ℚ) (thr : ℚ)
    (h : boxes.length = scores.length) :
    nms_cpu_kernel boxes scores thr = some (suppress boxes scores thr) := by
  unfold nms_cpu_kernel suppress
  by_cases hb : boxes.isEmpty
  · simp [hb]
  · simp only [hb, if_false, Bool.false_eq_true]
    rw [outerLoop_eq_spec boxes (argsortDesc scores) thr boxes.length
      (by rw [argsortDesc_length]; omega)
      (List.range boxes.length) (List.replicate boxes.length false)
      (fun j hj => by
        rw [List.length_replicate]; rw [mem_argsortDesc] at hj; omega)
      (fun j hj => by rw [mem_argsortDesc] at hj; omega)
      (fun p hp => by rw [argsortDesc_length]; rw [List.mem_range] at hp; omega)]
    rfl

/-! ### Dynamics of the suppression flags -/

lemma specInnerLoop_mono (boxes : List Box) (order : List ℕ) (thr : ℚ) (bi : Box) :
    ∀ (qs : List ℕ) (sup : List Bool) (k : ℕ),
      sup.getD k false = true →
      (specInnerLoop boxes order thr bi qs sup).getD k false = true
  | [], _, _, h => h
  | q :: qs, sup, k, h => by
    simp only [specInnerLoop]
    split_ifs
    · exact specInnerLoop_mono boxes order thr bi qs sup k h
    · exact specInnerLoop_mono boxes order thr bi qs _ k (getD_set_true_of h)
    · exact specInnerLoop_mono boxes order thr bi qs sup k h

lemma specOuterLoop_mono (boxes : List Box) (order : List ℕ) (thr : ℚ) (ndets : ℕ) :
    ∀ (ps : List ℕ) (sup : List Bool) (k : ℕ),
      sup.getD k false = true →
      (specOuterLoop boxes order thr ndets ps sup).getD k false = true
  | [], _, _, h => h
  | p :: ps, sup, k, h => by
    simp only [specOuterLoop]
    split_ifs
    · exact specOuterLoop_mono boxes order thr ndets ps sup k h
    · exact specOuterLoop_mono boxes order thr ndets ps _ k
        (specInnerLoop_mono boxes order thr _ _ sup k h)

lemma specInnerLoop_marks (boxes : List Box) (order : List ℕ) (thr : ℚ) (bi : Box) :
    ∀ (qs : List ℕ) (sup : List Bool) (k : ℕ),
      (specInnerLoop boxes order thr bi qs sup).getD k false = true →
      sup.getD k false = true ∨ ∃ q ∈ qs, order.getD q 0 = k
  | [], _, _, h => Or.inl h
  | q :: qs, sup, k, h => by
    simp only [specInnerLoop] at h
    split_ifs at h
    · rcases specInnerLoop_marks boxes order thr bi qs sup k h with hl | ⟨q', hq', hk⟩
      · exact Or.inl hl
      · exact Or.inr ⟨q', List.mem_cons_of_mem _ hq', hk⟩
    · rcases specInnerLoop_marks boxes order thr bi qs _ k h with hl | ⟨q', hq', hk⟩
      · rcases getD_set_true_cases hl with hl' | rfl
        · exact Or.inl hl'
        · exact Or.inr ⟨q, List.mem_cons_self _ _, rfl⟩
      · exact Or.inr ⟨q', List.mem_cons_of_mem _ hq', hk⟩
    · rcases specInnerLoop_marks boxes order thr bi qs sup k h with hl | ⟨q', hq', hk⟩
      · exact Or.inl hl
      · exact Or.inr ⟨q', List.mem_cons_of_mem _ hq', hk⟩

lemma specOuterLoop_marks (boxes : List Box) (order : List ℕ) (thr : ℚ) (ndets : ℕ) :
    ∀ (ps : List ℕ) (sup : List Bool) (k p0 : ℕ),
      (∀ p ∈ ps, p0 ≤ p) →
      (specOuterLoop boxes order thr ndets ps sup).getD k false = true →
      sup.getD k false = true ∨
        ∃ q, p0 + 1 ≤ q ∧ q < ndets ∧ order.getD q 0 = k
  | [], _, _, _, _, h => Or.inl h
  | p :: ps, sup, k, p0, hp0, h => by
    have hp : p0 ≤ p := hp0 p (List.mem_cons_self _ _)
    have hp0' : ∀ p' ∈ ps, p0 ≤ p' :=
      fun p' hp' => hp0 p' (List.mem_cons_of_mem _ hp')
    simp only [specOuterLoop] at h
    split_ifs at h
    · exact specOuterLoop_marks boxes order thr ndets ps sup k p0 hp0' h
    · rcases specOuterLoop_marks boxes order thr ndets ps _ k p0 hp0' h with hl | hr
      · rcases specInnerLoop_marks boxes order thr _ _ sup k hl with hll | ⟨q, hq, hk⟩
        · exact Or.inl hll
        · rw [List.mem_range'] at hq
          obtain ⟨i, hi, rfl⟩ := hq
          exact Or.inr ⟨p + 1 + 1 * i, by omega, by omega, hk⟩
      · exact Or.inr hr

lemma specInnerLoop_tests (boxes : List Box) (order : List ℕ) (thr : ℚ) (bi : Box) :
    ∀ (qs : List ℕ) (sup : List Bool),
      (∀ q' ∈ qs, order.getD q' 0 < sup.length) →
      ∀ q ∈ qs,
        (specInnerLoop boxes order thr bi qs sup).getD (order.getD q 0) false = true ∨
          ovr bi (boxes.getD (order.getD q 0) default) < thr := by
  intro qs
  induction qs with
  | nil => intro sup _ q hq; simp at hq
  | cons q0 qs IH =>
    intro sup hb q hq
    have hb0 : order.getD q0 0 < sup.length := hb q0 (List.mem_cons_self _ _)
    have hb' : ∀ q' ∈ qs, order.getD q' 0 < sup.length :=
      fun q' h' => hb q' (List.mem_cons_of_mem _ h')
    simp only [specInnerLoop]
    split_ifs with h1 h2
    · rcases List.mem_cons.mp hq with rfl | hqt
      · left
        apply specInnerLoop_mono
        rwa [getD_bool_eq hb0 false true]
      · exact IH sup hb' q hqt
    · rcases List.mem_cons.mp hq with rfl | hqt
      · left
        apply specInnerLoop_mono
        rw [List.getD_eq_getElem _ _ (by rw [List.length_set]; exact hb0)]
        simp
      · exact IH _ (fun q' h' => by rw [List.length_set]; exact hb' q' h') q hqt
    · rcases List.mem_cons.mp hq with rfl | hqt
      · right
        rw [specIou_eq_ovr] at h2
        exact lt_of_not_le h2
      · exact IH sup hb' q hqt

lemma specInnerLoop_no_marks (boxes : List Box) (order : List ℕ) (thr : ℚ) (bi : Box) :
    ∀ (qs : List ℕ) (sup : List Bool),
      (∀ q ∈ qs, ovr bi (boxes.getD (order.getD q 0) default) < thr) →
      specInnerLoop boxes order thr bi qs sup = sup
  | [], _, _ => rfl
  | q :: qs, sup, h => by
    have h0 : ovr bi (boxes.getD (order.getD q 0) default) < thr :=
      h q (List.mem_cons_self _ _)
    have h' : ∀ q' ∈ qs, ovr bi (boxes.getD (order.getD q' 0) default) < thr :=
      fun q' hq' => h q' (List.mem_cons_of_mem _ hq')
    simp only [specInnerLoop]
    split_ifs with h1 h2
    · exact specInnerLoop_no_marks boxes order thr bi qs sup h'
    · rw [specIou_eq_ovr] at h2
      exact absurd h2 (not_le_of_lt h0)
    · exact specInnerLoop_no_marks boxes order thr bi qs sup h'

lemma specOuterLoop_no_marks (boxes : List Box) (order : List ℕ) (thr : ℚ)
    (ndets : ℕ) (hnodup : order.Nodup) (hlen : ndets ≤ order.length)
    (hpair : ∀ a b : ℕ, a ∈ order → b ∈ order → a ≠ b →
      ovr (boxes.getD a default) (boxes.getD b default) < thr) :
    ∀ (ps : List ℕ) (sup : List Bool), (∀ p ∈ ps, p < ndets) →
      specOuterLoop boxes order thr ndets ps sup = sup
  | [], _, _ => rfl
  | p :: ps, sup, hps => by
    have hp : p < ndets := hps p (List.mem_cons_self _ _)
    have hps' : ∀ p' ∈ ps, p' < ndets :=
      fun p' h' => hps p' (List.mem_cons_of_mem _ h')
    have hpo : p < order.length := lt_of_lt_of_le hp hlen
    simp only [specOuterLoop]
    split_ifs with h1
    · exact specOuterLoop_no_marks boxes order thr ndets hnodup hlen hpair ps sup hps'
    · rw [specInnerLoop_no_marks]
      · exact specOuterLoop_no_marks boxes order thr ndets hnodup hlen hpair ps sup hps'
      · intro q hq
        rw [List.mem_range'] at hq
        obtain ⟨i, hi, rfl⟩ := hq
        have hqo : p + 1 + 1 * i < order.length := by omega
        apply hpair
        · rw [List.getD_eq_getElem _ _ hpo]; exact List.getElem_mem hpo
        · rw [List.getD_eq_getElem _ _ hqo]; exact List.getElem_mem hqo
        · rw [List.getD_eq_getElem _ _ hpo, List.getD_eq_getElem _ _ hqo]
          intro hcontra
          have := (List.Nodup.getElem_inj_iff hnodup).mp hcontra
          omega

lemma specOuterLoop_all_skip (boxes : List Box) (order : List ℕ) (thr : ℚ)
    (ndets : ℕ) :
    ∀ (ps : List ℕ) (sup : List Bool),
      (∀ p ∈ ps, sup.getD (order.getD p 0) true = true) →
      specOuterLoop boxes order thr ndets ps sup = sup
  | [], _, _ => rfl
  | p :: ps, sup, h => by
    simp only [specOuterLoop]
    rw [if_pos (h p (List.mem_cons_self _ _))]
    exact specOuterLoop_all_skip boxes order thr ndets ps sup
      (fun p' hp' => h p' (List.mem_cons_of_mem _ hp'))

lemma inter_swap (a b : Box) : inter a b = inter b a := by
  simp only [inter]
  rw [max_comm a.x1 b.x1, max_comm a.y1 b.y1, min_comm a.x2 b.x2,
    min_comm a.y2 b.y2]

lemma ovr_swap (a b : Box) : ovr a b = ovr b a := by
  simp only [ovr]
  rw [inter_swap, add_comm (area a) (area b)]

lemma specOuterLoop_kept_pairs (boxes : List Box) (order : List ℕ) (thr : ℚ)
    (ndets : ℕ) (hlen : order.length = ndets) :
    ∀ (n p : ℕ) (sup : List Bool), p + n = ndets →
      (∀ j ∈ order, j < sup.length) →
      ∀ pa pb : ℕ, p ≤ pa → pa < pb → pb < ndets →
        (specOuterLoop boxes order thr ndets (List.range' p n) sup).getD
            (order.getD pa 0) false = false →
        (specOuterLoop boxes order thr ndets (List.range' p n) sup).getD
            (order.getD pb 0) false = false →
        ovr (boxes.getD (order.getD pa 0) default)
            (boxes.getD (order.getD pb 0) default) < thr := by
  intro n
  induction n with
  | zero => intro p sup hpn hso pa pb hpa hab hbnd _ _; omega
  | succ n IH =>
    intro p sup hpn hso pa pb hpa hab hbnd hfa hfb
    rw [List.range'_succ] at hfa hfb
    have hpo : p < order.length := by omega
    have hio : order.getD p 0 ∈ order := by
      rw [List.getD_eq_getElem _ _ hpo]; exact List.getElem_mem hpo
    have his : order.getD p 0 < sup.length := hso _ hio
    simp only [specOuterLoop] at hfa hfb
    by_cases hskip : sup.getD (order.getD p 0) true = true
    · rw [if_pos hskip] at hfa hfb
      rcases Nat.eq_or_lt_of_le hpa with rfl | hpa'
      · exfalso
        have hmono : (specOuterLoop boxes order thr ndets (List.range' (p + 1) n)
            sup).getD (order.getD p 0) false = true := by
          apply specOuterLoop_mono
          rwa [getD_bool_eq his true false] at hskip
        rw [hmono] at hfa
        simp at hfa
      · exact IH (p + 1) sup (by omega) hso pa pb (by omega) hab hbnd hfa hfb
    · rw [if_neg hskip] at hfa hfb
      have hnd1 : ndets - (p + 1) = n := by omega
      have hso' : ∀ j ∈ order,
          j < (specInnerLoop boxes order thr (boxes.getD (order.getD p 0) default)
            (List.range' (p + 1) (ndets - (p + 1))) sup).length := by
        intro j hj
        rw [specInnerLoop_length]
        exact hso j hj
      rcases Nat.eq_or_lt_of_le hpa with rfl | hpa'
      · have hpbmem : pb ∈ List.range' (p + 1) (ndets - (p + 1)) := by
          rw [List.mem_range']
          exact ⟨pb - (p + 1), by omega, by omega⟩
        have hbnds : ∀ q ∈ List.range' (p + 1) (ndets - (p + 1)),
            order.getD q 0 < sup.length := by
          intro q hq
          rw [List.mem_range'] at hq
          obtain ⟨i, hi, rfl⟩ := hq
          have hqo : p + 1 + 1 * i < order.length := by omega
          apply hso
          rw [List.getD_eq_getElem _ _ hqo]
          exact List.getElem_mem hqo
        rcases specInnerLoop_tests boxes order thr
            (boxes.getD (order.getD p 0) default)
            (List.range' (p + 1) (ndets - (p + 1))) sup hbnds pb hpbmem with ht | ho
        · exfalso
          have hmono := specOuterLoop_mono boxes order thr ndets
            (List.range' (p + 1) n) _ (order.getD pb 0) ht
          rw [hmono] at hfb
          simp at hfb
        · exact ho
      · exact IH (p + 1) _ (by omega) hso' pa pb (by omega) hab hbnd hfa hfb

/-! ### Properties of the suppression result -/

lemma exists_order_pos (scores : List ℚ) (a : ℕ) (ha : a < scores.length) :
    ∃ pa, pa < (argsortDesc scores).length ∧ (argsortDesc scores).getD pa 0 = a := by
  have hmem : a ∈ argsortDesc scores := mem_argsortDesc.mpr ha
  rw [List.mem_iff_getElem] at hmem
  obtain ⟨pa, hpa, he⟩ := hmem
  exact ⟨pa, hpa, by rw [List.getD_eq_getElem _ _ hpa]; exact he⟩

lemma getD_mem {l : List ℕ} {a : ℕ} (h : a < l.length) : l.getD a 0 ∈ l := by
  rw [List.getD_eq_getElem _ _ h]
  exact List.getElem_mem h

lemma nodup_getD_inj {l : List ℕ} (h : l.Nodup) {a b : ℕ} (ha : a < l.length)
    (hb : b < l.length) (hab : a ≠ b) : l.getD a 0 ≠ l.getD b 0 := by
  rw [List.getD_eq_getElem _ _ ha, List.getD_eq_getElem _ _ hb]
  intro hc
  exact hab ((List.Nodup.getElem_inj_iff h).mp hc)

lemma mem_suppress {boxes : List Box} {scores : List ℚ} {thr : ℚ} {k : ℕ} :
    k ∈ suppress boxes scores thr ↔
      k < boxes.length ∧ (finalFlags boxes scores thr).getD k false = false := by
  unfold suppress
  by_cases hbe : boxes.isEmpty
  · rw [if_pos hbe]
    rw [List.isEmpty_iff] at hbe
    subst hbe
    simp
  · rw [if_neg hbe, mem_keptIndices, finalFlags_length]

lemma suppress_sorted (boxes : List Box) (scores : List ℚ) (thr : ℚ) :
    (suppress boxes scores thr).Pairwise (· < ·) := by
  unfold suppress
  split_ifs
  · exact List.Pairwise.nil
  · exact keptIndices_sorted _

lemma suppress_nodup (boxes : List Box) (scores : List ℚ) (thr : ℚ) :
    (suppress boxes scores thr).Nodup := by
  unfold suppress
  split_ifs
  · exact List.nodup_nil
  · exact keptIndices_nodup _

lemma suppress_length_le (boxes : List Box) (scores : List ℚ) (thr : ℚ) :
    (suppress boxes scores thr).length ≤ boxes.length := by
  unfold suppress
  split_ifs
  · simp
  · calc (keptIndices (finalFlags boxes scores thr)).length
        ≤ (finalFlags boxes scores thr).length := keptIndices_length_le _
    _ = boxes.length := finalFlags_length _ _ _

lemma finalFlags_kept_pairs (boxes : List Box) (scores : List ℚ) (thr : ℚ)
    (h : boxes.length = scores.length) {a b : ℕ}
    (ha : a < boxes.length) (hb : b < boxes.length) (hab : a ≠ b)
    (hfa : (finalFlags boxes scores thr).getD a false = false)
    (hfb : (finalFlags boxes scores thr).getD b false = false) :
    ovr (boxes.getD a default) (boxes.getD b default) < thr := by
  obtain ⟨pa, hpal, hga⟩ := exists_order_pos scores a (by omega)
  obtain ⟨pb, hpbl, hgb⟩ := exists_order_pos scores b (by omega)
  have hlen : (argsortDesc scores).length = boxes.length := by
    rw [argsortDesc_length]; omega
  have hso : ∀ j ∈ argsortDesc scores,
      j < (List.replicate boxes.length false).length := by
    intro j hj
    rw [List.length_replicate]
    rw [mem_argsortDesc] at hj
    omega
  have hne : pa ≠ pb := by
    intro hc
    apply hab
    rw [← hga, ← hgb, hc]
  have hff : finalFlags boxes scores thr =
      specOuterLoop boxes (argsortDesc scores) thr boxes.length
        (List.range' 0 boxes.length) (List.replicate boxes.length false) := by
    unfold finalFlags
    rw [List.range_eq_range']
  rcases lt_or_gt_of_ne hne with hlt | hgt
  · have hres := specOuterLoop_kept_pairs boxes (argsortDesc scores) thr
      boxes.length hlen boxes.length 0 (List.replicate boxes.length false)
      (by omega) hso pa pb (Nat.zero_le _) hlt (by omega)
      (by rw [← hff, hga]; exact hfa) (by rw [← hff, hgb]; exact hfb)
    rw [hga, hgb] at hres
    exact hres
  · have hres := specOuterLoop_kept_pairs boxes (argsortDesc scores) thr
      boxes.length hlen boxes.length 0 (List.replicate boxes.length false)
      (by omega) hso pb pa (Nat.zero_le _) hgt (by omega)
      (by rw [← hff, hgb]; exact hfb) (by rw [← hff, hga]; exact hfa)
    rw [hga, hgb] at hres
    rw [ovr_swap]
    exact hres

lemma suppress_pairs_far (boxes : List Box) (scores : List ℚ) (thr : ℚ)
    (h : boxes.length = scores.length) {a b : ℕ}
    (ha : a ∈ suppress boxes scores thr) (hb : b ∈ suppress boxes scores thr)
    (hab : a ≠ b) :
    ovr (boxes.getD a default) (boxes.getD b default) < thr := by
  rw [mem_suppress] at ha hb
  exact finalFlags_kept_pairs boxes scores thr h ha.1 hb.1 hab ha.2 hb.2

lemma suppress_eq_range_of_far (boxes : List Box) (scores : List ℚ) (thr : ℚ)
    (h : boxes.length = scores.length)
    (hfar : ∀ a b : ℕ, a < boxes.length → b < boxes.length → a ≠ b →
      ovr (boxes.getD a default) (boxes.getD b default) < thr) :
    suppress boxes scores thr = List.range boxes.length := by
  unfold suppress
  by_cases hbe : boxes.isEmpty
  · rw [if_pos hbe]
    rw [List.isEmpty_iff] at hbe
    subst hbe
    simp
  · rw [if_neg hbe]
    unfold finalFlags
    rw [specOuterLoop_no_marks boxes (argsortDesc scores) thr boxes.length
      (argsortDesc_nodup scores) (by rw [argsortDesc_length]; omega)
      (fun a b ha hb hab => hfar a b (by rw [mem_argsortDesc] at ha; omega)
        (by rw [mem_argsortDesc] at hb; omega) hab)
      (List.range boxes.length) (List.replicate boxes.length false)
      (fun p hp => List.mem_range.mp hp)]
    exact keptIndices_replicate_false _

lemma gather_length (d : α) (l : List α) (idx : List ℕ) :
    (gather d l idx).length = idx.length := by
  unfold gather
  rw [List.length_map]

lemma gather_getD (d : α) (l : List α) (idx : List ℕ) (a : ℕ) (h : a < idx.length) :
    (gather d l idx).getD a d = l.getD (idx.getD a 0) d := by
  unfold gather
  have h' : a < (idx.map fun k => l.getD k d).length := by
    rw [List.length_map]
    exact h
  rw [List.getD_eq_getElem _ _ h', List.getD_eq_getElem _ _ h]
  simp

/-! ### Geometry of well-formed boxes -/

lemma inter_nonneg (a b : Box) : 0 ≤ inter a b := by
  simp only [inter]
  exact mul_nonneg (le_max_left 0 _) (le_max_left 0 _)

lemma area_pos_of_wf {b : Box} (h1 : b.x1 ≤ b.x2) (h2 : b.y1 ≤ b.y2) :
    0 < area b := by
  unfold area
  apply mul_pos <;> linarith

lemma inter_le_area_left {a : Box} (b : Box) (ha1 : a.x1 ≤ a.x2)
    (ha2 : a.y1 ≤ a.y2) : inter a b ≤ area a := by
  simp only [inter, area]
  apply mul_le_mul
  · apply max_le
    · linarith
    · have h1 : min a.x2 b.x2 ≤ a.x2 := min_le_left _ _
      have h2 : a.x1 ≤ max a.x1 b.x1 := le_max_left _ _
      linarith
  · apply max_le
    · linarith
    · have h1 : min a.y2 b.y2 ≤ a.y2 := min_le_left _ _
      have h2 : a.y1 ≤ max a.y1 b.y1 := le_max_left _ _
      linarith
  · exact le_max_left 0 _
  · linarith

lemma ovr_nonneg {a b : Box} (ha1 : a.x1 ≤ a.x2) (ha2 : a.y1 ≤ a.y2)
    (hb1 : b.x1 ≤ b.x2) (hb2 : b.y1 ≤ b.y2) : 0 ≤ ovr a b := by
  unfold ovr
  apply div_nonneg (inter_nonneg a b)
  have h1 : inter a b ≤ area a := inter_le_area_left b ha1 ha2
  have h2 : 0 < area b := area_pos_of_wf hb1 hb2
  linarith

/-! ### The run at threshold zero -/

lemma getD_replicate_false (n k : ℕ) :
    (List.replicate n false).getD k false = false := by
  rw [List.getD_eq_getElem?_getD, List.getElem?_replicate]
  split_ifs <;> rfl

lemma headD_eq_getD (l : List ℕ) (d : ℕ) : l.headD d = l.getD 0 d := by
  cases l <;> rfl

lemma sorted_nodup_mem_singleton {l : List ℕ} {a : ℕ} (hs : l.Pairwise (· < ·))
    (hm : ∀ k, k ∈ l ↔ k = a) : l = [a] := by
  cases l with
  | nil => exact absurd ((hm a).mpr rfl) (List.not_mem_nil a)
  | cons x t =>
    have hx : x = a := (hm x).mp (List.mem_cons_self _ _)
    subst hx
    have ht : t = [] := by
      cases t with
      | nil => rfl
      | cons y u =>
        have hy : y = x := (hm y).mp (List.mem_cons_of_mem _ (List.mem_cons_self _ _))
        have hlt := List.rel_of_pairwise_cons hs (List.mem_cons_self y u)
        omega
    rw [ht]

lemma finalFlags_threshold_zero (boxes : List Box) (scores : List ℚ)
    (h : boxes.length = scores.length) (hne : boxes ≠ [])
    (hwf : ∀ b ∈ boxes, b.x1 ≤ b.x2 ∧ b.y1 ≤ b.y2) (k : ℕ) (hk : k < boxes.length) :
    ((finalFlags boxes scores 0).getD k false = false ↔
      k = (argsortDesc scores).headD 0) := by
  have hN : 0 < boxes.length := List.length_pos.mpr hne
  have hOlen : (argsortDesc scores).length = boxes.length := by
    rw [argsortDesc_length]; omega
  obtain ⟨m, hm⟩ := Nat.exists_eq_succ_of_ne_zero (Nat.pos_iff_ne_zero.mp hN)
  have hwfD : ∀ j : ℕ, j < boxes.length →
      (boxes.getD j default).x1 ≤ (boxes.getD j default).x2 ∧
      (boxes.getD j default).y1 ≤ (boxes.getD j default).y2 := by
    intro j hj
    rw [List.getD_eq_getElem _ _ hj]
    exact hwf _ (List.getElem_mem hj)
  have hordD : ∀ q : ℕ, q < boxes.length →
      (argsortDesc scores).getD q 0 < boxes.length := by
    intro q hq
    have : (argsortDesc scores).getD q 0 ∈ argsortDesc scores :=
      getD_mem (by omega)
    rw [mem_argsortDesc] at this
    omega
  -- unfold the first iteration of the outer loop
  have hsplit : List.range boxes.length =
      0 :: List.range' 1 (boxes.length - 1) := by
    rw [List.range_eq_range', hm, List.range'_succ]
    simp
  have h0lt : (argsortDesc scores).getD 0 0 < boxes.length := hordD 0 hN
  have hskip0 : (List.replicate boxes.length false).getD
      ((argsortDesc scores).getD 0 0) true = false := by
    rw [getD_bool_eq (by rw [List.length_replicate]; omega) true false]
    exact getD_replicate_false _ _
  have hff : finalFlags boxes scores 0 =
      specOuterLoop boxes (argsortDesc scores) 0 boxes.length
        (List.range' 1 (boxes.length - 1))
        (specInnerLoop boxes (argsortDesc scores) 0
          (boxes.getD ((argsortDesc scores).getD 0 0) default)
          (List.range' (0 + 1) (boxes.length - (0 + 1)))
          (List.replicate boxes.length false)) := by
    unfold finalFlags
    rw [hsplit]
    simp only [specOuterLoop]
    rw [if_neg (by rw [hskip0]; exact Bool.false_ne_true)]
  have hsup1len : (specInnerLoop boxes (argsortDesc scores) 0
      (boxes.getD ((argsortDesc scores).getD 0 0) default)
      (List.range' (0 + 1) (boxes.length - (0 + 1)))
      (List.replicate boxes.length false)).length = boxes.length := by
    rw [specInnerLoop_length, List.length_replicate]
  -- every later-ranked box gets marked in the first inner pass
  have hmarked : ∀ q ∈ List.range' (0 + 1) (boxes.length - (0 + 1)),
      (specInnerLoop boxes (argsortDesc scores) 0
        (boxes.getD ((argsortDesc scores).getD 0 0) default)
        (List.range' (0 + 1) (boxes.length - (0 + 1)))
        (List.replicate boxes.length false)).getD
          ((argsortDesc scores).getD q 0) false = true := by
    intro q hq
    have hqlt : q < boxes.length := by
      rw [List.mem_range'] at hq
      obtain ⟨i, hi, rfl⟩ := hq
      omega
    rcases specInnerLoop_tests boxes (argsortDesc scores) 0
        (boxes.getD ((argsortDesc scores).getD 0 0) default)
        (List.range' (0 + 1) (boxes.length - (0 + 1)))
        (List.replicate boxes.length false)
        (by
          intro q' hq'
          rw [List.mem_range'] at hq'
          obtain ⟨i, hi, rfl⟩ := hq'
          rw [List.length_replicate]
          exact hordD _ (by omega))
        q hq with ht | ho
    · exact ht
    · exfalso
      have h1 := hwfD _ h0lt
      have h2 := hwfD _ (hordD q hqlt)
      exact absurd ho (not_lt_of_le (ovr_nonneg h1.1 h1.2 h2.1 h2.2))
  -- the top-ranked box is never marked
  have htop : (specInnerLoop boxes (argsortDesc scores) 0
      (boxes.getD ((argsortDesc scores).getD 0 0) default)
      (List.range' (0 + 1) (boxes.length - (0 + 1)))
      (List.replicate boxes.length false)).getD
        ((argsortDesc scores).getD 0 0) false = false := by
    by_contra hc
    rw [Bool.not_eq_false] at hc
    rcases specInnerLoop_marks boxes (argsortDesc scores) 0 _ _ _ _ hc with hl | ⟨q, hq, hqe⟩
    · rw [getD_replicate_false] at hl
      exact Bool.false_ne_true hl
    · rw [List.mem_range'] at hq
      obtain ⟨i, hi, rfl⟩ := hq
      exact nodup_getD_inj (argsortDesc_nodup scores) (by omega) (by omega)
        (by omega) hqe.symm
  -- the remaining outer iterations all skip
  have hrest : specOuterLoop boxes (argsortDesc scores) 0 boxes.length
      (List.range' 1 (boxes.length - 1))
      (specInnerLoop boxes (argsortDesc scores) 0
        (boxes.getD ((argsortDesc scores).getD 0 0) default)
        (List.range' (0 + 1) (boxes.length - (0 + 1)))
        (List.replicate boxes.length false)) =
      specInnerLoop boxes (argsortDesc scores) 0
        (boxes.getD ((argsortDesc scores).getD 0 0) default)
        (List.range' (0 + 1) (boxes.length - (0 + 1)))
        (List.replicate boxes.length false) := by
    apply specOuterLoop_all_skip
    intro p hp
    have hp' : p ∈ List.range' (0 + 1) (boxes.length - (0 + 1)) := by
      simpa using hp
    have hplt : p < boxes.length := by
      rw [List.mem_range'] at hp'
      obtain ⟨i, hi, rfl⟩ := hp'
      omega
    rw [getD_bool_eq (by rw [hsup1len]; exact hordD p hplt) true false]
    exact hmarked p hp'
  rw [hff, hrest, headD_eq_getD]
  constructor
  · intro hflag
    by_contra hne'
    obtain ⟨q, hqlt, hqe⟩ := exists_order_pos scores k (by omega)
    have hq0 : q ≠ 0 := by
      intro hc
      subst hc
      exact hne' hqe.symm
    have hqmem : q ∈ List.range' (0 + 1) (boxes.length - (0 + 1)) := by
      rw [List.mem_range']
      exact ⟨q - 1, by omega, by omega⟩
    have := hmarked q hqmem
    rw [hqe] at this
    rw [this] at hflag
    exact Bool.true_eq_false ▸ (by simp at hflag)
  · intro hk0
    subst hk0
    exact htop

/-! ### Monotonicity of the suppressed flags along the source loops -/

lemma innerLoop_mono_aux (boxes : List Box) (order : List ℕ) (thr : ℚ) (bi : Box) :
    ∀ (qs : List ℕ) (sup supF : List Bool),
      innerLoop boxes order thr bi qs sup = some supF →
      ∀ k : ℕ, sup.getD k false = true → supF.getD k false = true
  | [], sup, supF, h, k, hk => by
    simp only [innerLoop, Option.some.injEq] at h
    rwa [← h]
  | q :: qs, sup, supF, h, k, hk => by
    cases ho : order[q]? with
    | none => simp [innerLoop, List.get?_eq_getElem?, ho] at h
    | some j =>
      cases hs : sup[j]? with
      | none => simp [innerLoop, List.get?_eq_getElem?, ho, hs] at h
      | some b =>
        cases b with
        | true =>
          simp only [innerLoop, List.get?_eq_getElem?, ho, hs] at h
          exact innerLoop_mono_aux boxes order thr bi qs sup supF h k hk
        | false =>
          cases hbx : boxes[j]? with
          | none => simp [innerLoop, List.get?_eq_getElem?, ho, hs, hbx] at h
          | some bj =>
            simp only [innerLoop, List.get?_eq_getElem?, ho, hs, hbx] at h
            split_ifs at h
            · exact innerLoop_mono_aux boxes order thr bi qs _ supF h k
                (getD_set_true_of hk)
            · exact innerLoop_mono_aux boxes order thr bi qs sup supF h k hk

lemma outerLoop_mono_aux (boxes : List Box) (order : List ℕ) (thr : ℚ) (ndets : ℕ) :
    ∀ (ps : List ℕ) (sup supF : List Bool),
      outerLoop boxes order thr ndets ps sup = some supF →
      ∀ k : ℕ, sup.getD k false = true → supF.getD k false = true
  | [], sup, supF, h, k, hk => by
    simp only [outerLoop, Option.some.injEq] at h
    rwa [← h]
  | p :: ps, sup, supF, h, k, hk => by
    cases ho : order[p]? with
    | none => simp [outerLoop, List.get?_eq_getElem?, ho] at h
    | some i =>
      cases hs : sup[i]? with
      | none => simp [outerLoop, List.get?_eq_getElem?, ho, hs] at h
      | some b =>
        cases b with
        | true =>
          simp only [outerLoop, List.get?_eq_getElem?, ho, hs] at h
          exact outerLoop_mono_aux boxes order thr ndets ps sup supF h k hk
        | false =>
          cases hbx : boxes[i]? with
          | none => simp [outerLoop, List.get?_eq_getElem?, ho, hs, hbx] at h
          | some bi =>
            cases hi : innerLoop boxes order thr bi
                (List.range' (p + 1) (ndets - (p + 1))) sup with
            | none => simp [outerLoop, List.get?_eq_getElem?, ho, hs, hbx, hi] at h
            | some sup' =>
              simp only [outerLoop, List.get?_eq_getElem?, ho, hs, hbx, hi] at h
              exact outerLoop_mono_aux boxes order thr ndets ps sup' supF h k
                (innerLoop_mono_aux boxes order thr bi _ sup sup' hi k hk)

lemma finalFlags_top_unmarked (boxes : List Box) (scores : List ℚ) (thr : ℚ)
    (h : boxes.length = scores.length) (hne : boxes ≠ []) :
    (finalFlags boxes scores thr).getD ((argsortDesc scores).headD 0) false = false := by
  have hN : 0 < boxes.length := List.length_pos.mpr hne
  have hOlen : (argsortDesc scores).length = boxes.length := by
    rw [argsortDesc_length]; omega
  by_contra hc
  rw [Bool.not_eq_false] at hc
  unfold finalFlags at hc
  rcases specOuterLoop_marks boxes (argsortDesc scores) thr boxes.length
      (List.range boxes.length) (List.replicate boxes.length false)
      ((argsortDesc scores).headD 0) 0 (fun p _ => Nat.zero_le p) hc with
    hl | ⟨q, hq1, hq2, hqe⟩
  · rw [getD_replicate_false] at hl
    exact Bool.false_ne_true hl
  · rw [headD_eq_getD] at hqe
    exact nodup_getD_inj (argsortDesc_nodup scores) (by omega) (by omega)
      (by omega) hqe

/-! ### Claim theorems -/

/-- C1 counterexample: the kernel performs no box/score length check.  On a
one-box input with two scores (mismatched lengths) it raises no error at
all: it returns the normal result `[0]` computed from the box count, after
doing the suppression pass. -/
theorem nms_no_length_check_counterexample :
    ([(⟨0, 0, 10, 10⟩ : Box)].length ≠ ([2, 1] : List ℚ).length) ∧
      nms_cpu_kernel [⟨0, 0, 10, 10⟩] [2, 1] (1 / 2) = some [0] := by
  constructor
  · simp
  · norm_num [nms_cpu_kernel, outerLoop, innerLoop, argsortDesc, keptIndices,
      ovr, inter, area, min_def, max_def, List.range_succ]

/-- C1 (amended): the kernel never checks the box/score lengths; no
`InvalidArgument` error exists in the code.  What does hold is the second
half of the claim: for every pair of equal-length inputs the kernel is
total — it always returns a normal result and no runtime failure (modelled
by `none`) occurs. -/
theorem nms_total_on_equal_lengths (boxes : List Box) (scores : List ℚ)
    (thr : ℚ) (h : boxes.length = scores.length) :
    (nms_cpu_kernel boxes scores thr).isSome = true := by
  rw [nms_cpu_kernel_eq_suppress boxes scores thr h]
  rfl

/-- Witness for C1 (amended) at a concrete equal-length input. -/
theorem nms_total_on_equal_lengths_witness :
    (nms_cpu_kernel [⟨0, 0, 10, 10⟩] [1] (1 / 2)).isSome = true :=
  nms_total_on_equal_lengths [⟨0, 0, 10, 10⟩] [1] (1 / 2) rfl

/-- C2 (confirmed): on every equal-length input the kernel computes exactly
the algorithm described by the spec: `suppress` is built from the spec's
words (§4.1) — areas `(x2 - x1 + 1) * (y2 - y1 + 1)`, iteration over the
descending-score order, for each still-unsuppressed reference box the
intersection `w = max(0, xx2 - xx1 + 1)`, `h = max(0, yy2 - yy1 + 1)`,
`inter = w * h`, `ovr = inter / (area_i + area_j - inter)`, and marking of
a later-ranked unsuppressed box exactly when `ovr ≥ threshold`. -/
theorem nms_kernel_refines_suppress_spec (boxes : List Box) (scores : List ℚ)
    (thr : ℚ) (h : boxes.length = scores.length) :
    nms_cpu_kernel boxes scores thr = some (suppress boxes scores thr) :=
  nms_cpu_kernel_eq_suppress boxes scores thr h

/-- Witness for C2 at a concrete equal-length input. -/
theorem nms_kernel_refines_suppress_spec_witness :
    nms_cpu_kernel [⟨0, 0, 10, 10⟩] [1] (1 / 2) =
      some (suppress [⟨0, 0, 10, 10⟩] [1] (1 / 2)) :=
  nms_kernel_refines_suppress_spec [⟨0, 0, 10, 10⟩] [1] (1 / 2) rfl

/-- C5 (confirmed): the returned sequence is strictly ascending in original
index order, has length at most N, and contains exactly the indices whose
suppressed flag is still false when the double loop finishes. -/
theorem nms_result_is_unsuppressed_ascending (boxes : List Box)
    (scores : List ℚ) (thr : ℚ) (r : List ℕ)
    (h : boxes.length = scores.length)
    (hr : nms_cpu_kernel boxes scores thr = some r) :
    r.Pairwise (· < ·) ∧ r.length ≤ boxes.length ∧
      ∀ k : ℕ, k ∈ r ↔
        k < boxes.length ∧ (finalFlags boxes scores thr).getD k false = false := by
  rw [nms_cpu_kernel_eq_suppress boxes scores thr h] at hr
  injection hr with hr
  subst hr
  exact ⟨suppress_sorted _ _ _, suppress_length_le _ _ _, fun k => mem_suppress⟩

/-- Witness for C5 at a concrete input. -/
theorem nms_result_is_unsuppressed_ascending_witness :
    ([0] : List ℕ).Pairwise (· < ·) ∧ ([0] : List ℕ).length ≤
        ([(⟨0, 0, 10, 10⟩ : Box)]).length ∧
      ∀ k : ℕ, k ∈ ([0] : List ℕ) ↔
        k < ([(⟨0, 0, 10, 10⟩ : Box)]).length ∧
          (finalFlags [⟨0, 0, 10, 10⟩] [1] (1 / 2)).getD k false = false :=
  nms_result_is_unsuppressed_ascending [⟨0, 0, 10, 10⟩] [1] (1 / 2) [0] rfl
    (by norm_num [nms_cpu_kernel, outerLoop, innerLoop, argsortDesc,
      keptIndices, ovr, inter, area, min_def, max_def, List.range_succ])

/-- C6 (confirmed): with zero boxes the kernel takes the
`dets.numel() == 0` fast path and returns the empty index sequence without
running the suppression loops. -/
theorem nms_empty_input (scores : List ℚ) (thr : ℚ) :
    nms_cpu_kernel [] scores thr = some [] := rfl

/-- C7 (confirmed): the concrete scenario of §8.  With A = (0,0,10,10)
score 0.9, B = (1,1,11,11) score 0.8, C = (50,50,60,60) score 0.95 and
threshold 0.5, IoU(A,B) = 100/142 ≥ 0.5, IoU(A,C) = IoU(B,C) = 0, and the
kernel keeps exactly indices 0 and 2 (C examined first suppresses nothing;
A survives and suppresses B). -/
theorem nms_concrete_scenario :
    (1 / 2 : ℚ) ≤ ovr ⟨0, 0, 10, 10⟩ ⟨1, 1, 11, 11⟩ ∧
    ovr ⟨0, 0, 10, 10⟩ ⟨50, 50, 60, 60⟩ = 0 ∧
    ovr ⟨1, 1, 11, 11⟩ ⟨50, 50, 60, 60⟩ = 0 ∧
    nms_cpu_kernel [⟨0, 0, 10, 10⟩, ⟨1, 1, 11, 11⟩, ⟨50, 50, 60, 60⟩]
      [9 / 10, 8 / 10, 95 / 100] (1 / 2) = some [0, 2] := by
  refine ⟨?_, ?_, ?_, ?_⟩ <;>
    norm_num [nms_cpu_kernel, outerLoop, innerLoop, argsortDesc, keptIndices,
      ovr, inter, area, min_def, max_def, List.range_succ]

/-- C8 (confirmed): the suppressed flags start all false
(`at::zeros({ndets}, kByte)`), and along both source loops they only
transition false → true and never revert; a box whose flag is already true
is skipped entirely — the outer loop never uses it as a reference box and
the inner loop never re-examines it (both skip steps leave the state and
the rest of the computation unchanged). -/
theorem suppressed_flags_monotone_and_skip :
    (∀ n k : ℕ, (List.replicate n false).getD k false = false) ∧
    (∀ (boxes : List Box) (order : List ℕ) (thr : ℚ) (bi : Box) (qs : List ℕ)
        (sup supF : List Bool) (k : ℕ),
      innerLoop boxes order thr bi qs sup = some supF →
      sup.getD k false = true → supF.getD k false = true) ∧
    (∀ (boxes : List Box) (order : List ℕ) (thr : ℚ) (ndets : ℕ) (ps : List ℕ)
        (sup supF : List Bool) (k : ℕ),
      outerLoop boxes order thr ndets ps sup = some supF →
      sup.getD k false = true → supF.getD k false = true) ∧
    (∀ (boxes : List Box) (order : List ℕ) (thr : ℚ) (bi : Box) (q : ℕ)
        (qs : List ℕ) (j : ℕ) (sup : List Bool),
      order.get? q = some j → sup.get? j = some true →
      innerLoop boxes order thr bi (q :: qs) sup =
        innerLoop boxes order thr bi qs sup) ∧
    (∀ (boxes : List Box) (order : List ℕ) (thr : ℚ) (ndets : ℕ) (p : ℕ)
        (ps : List ℕ) (i : ℕ) (sup : List Bool),
      order.get? p = some i → sup.get? i = some true →
      outerLoop boxes order thr ndets (p :: ps) sup =
        outerLoop boxes order thr ndets ps sup) := by
  refine ⟨fun n k => getD_replicate_false n k, ?_, ?_, ?_, ?_⟩
  · exact fun boxes order thr bi qs sup supF k hrun hk =>
      innerLoop_mono_aux boxes order thr bi qs sup supF hrun k hk
  · exact fun boxes order thr ndets ps sup supF k hrun hk =>
      outerLoop_mono_aux boxes order thr ndets ps sup supF hrun k hk
  · intro boxes order thr bi q qs j sup hq hj
    simp [innerLoop, List.get?_eq_getElem?] at hq hj ⊢
    simp [hq, hj]
  · intro boxes order thr ndets p ps i sup hp hi
    simp [outerLoop, List.get?_eq_getElem?] at hp hi ⊢
    simp [hp, hi]

/-- Witness for C8: a concrete skip step of the outer loop. -/
theorem suppressed_flags_monotone_and_skip_witness :
    outerLoop [] [0] 0 0 (0 :: []) [true] = outerLoop [] [0] 0 0 [] [true] :=
  suppressed_flags_monotone_and_skip.2.2.2.2 [] [0] 0 0 0 [] 0 [true] rfl rfl

/-- C9 (confirmed): on every non-empty equal-length input the kernel
returns a result that contains the index ranked first in the descending
score order, and that index carries a maximal score — the first reference
box is never suppressed, since the inner loop only marks boxes at strictly
later ranking positions. -/
theorem max_score_box_kept (boxes : List Box) (scores : List ℚ) (thr : ℚ)
    (h : boxes.length = scores.length) (hne : boxes ≠ []) :
    ∃ r, nms_cpu_kernel boxes scores thr = some r ∧
      (argsortDesc scores).headD 0 ∈ r ∧
      ∀ k : ℕ, k < boxes.length →
        scores.getD k 0 ≤ scores.getD ((argsortDesc scores).headD 0) 0 := by
  refine ⟨suppress boxes scores thr,
    nms_cpu_kernel_eq_suppress boxes scores thr h, ?_, ?_⟩
  · rw [mem_suppress]
    have hN : 0 < boxes.length := List.length_pos.mpr hne
    constructor
    · rw [headD_eq_getD]
      have hmem := getD_mem
        (show 0 < (argsortDesc scores).length by rw [argsortDesc_length]; omega)
      rw [mem_argsortDesc] at hmem
      omega
    · exact finalFlags_top_unmarked boxes scores thr h hne
  · intro k hk
    exact argsortDesc_head_max scores k (by omega)

/-- Witness for C9 at a concrete one-box input. -/
theorem max_score_box_kept_witness :
    ∃ r, nms_cpu_kernel [⟨0, 0, 1, 1⟩] [1] (1 / 2) = some r ∧
      (argsortDesc [1]).headD 0 ∈ r ∧
      ∀ k : ℕ, k < ([(⟨0, 0, 1, 1⟩ : Box)]).length →
        ([1] : List ℚ).getD k 0 ≤ ([1] : List ℚ).getD ((argsortDesc [1]).headD 0) 0 :=
  max_score_box_kept [⟨0, 0, 1, 1⟩] [1] (1 / 2) rfl (List.cons_ne_nil _ _)

/-- C10 (confirmed): on a non-empty input of well-formed boxes
(`x1 ≤ x2`, `y1 ≤ y2`) with threshold 0, every pairwise `ovr` is
non-negative, so the first reference box suppresses every later-ranked box
and the kernel keeps exactly one index, of maximal score. -/
theorem threshold_zero_keeps_single_max (boxes : List Box) (scores : List ℚ)
    (h : boxes.length = scores.length) (hne : boxes ≠ [])
    (hwf : ∀ b ∈ boxes, b.x1 ≤ b.x2 ∧ b.y1 ≤ b.y2) :
    nms_cpu_kernel boxes scores 0 = some [(argsortDesc scores).headD 0] ∧
      ∀ k : ℕ, k < boxes.length →
        scores.getD k 0 ≤ scores.getD ((argsortDesc scores).headD 0) 0 := by
  have hN : 0 < boxes.length := List.length_pos.mpr hne
  constructor
  · rw [nms_cpu_kernel_eq_suppress boxes scores 0 h]
    congr 1
    apply sorted_nodup_mem_singleton (suppress_sorted boxes scores 0)
    intro k
    rw [mem_suppress]
    constructor
    · rintro ⟨hk, hflag⟩
      exact (finalFlags_threshold_zero boxes scores h hne hwf k hk).mp hflag
    · rintro rfl
      have hhd : (argsortDesc scores).headD 0 < boxes.length := by
        rw [headD_eq_getD]
        have hmem := getD_mem
          (show 0 < (argsortDesc scores).length by rw [argsortDesc_length]; omega)
        rw [mem_argsortDesc] at hmem
        omega
      exact ⟨hhd, (finalFlags_threshold_zero boxes scores h hne hwf _ hhd).mpr rfl⟩
  · intro k hk
    exact argsortDesc_head_max scores k (by omega)

/-- Witness for C10 at a concrete well-formed one-box input. -/
theorem threshold_zero_keeps_single_max_witness :
    nms_cpu_kernel [⟨0, 0, 1, 1⟩] [1] 0 = some [(argsortDesc [1]).headD 0] ∧
      ∀ k : ℕ, k < ([(⟨0, 0, 1, 1⟩ : Box)]).length →
        ([1] : List ℚ).getD k 0 ≤ ([1] : List ℚ).getD ((argsortDesc [1]).headD 0) 0 :=
  threshold_zero_keeps_single_max [⟨0, 0, 1, 1⟩] [1] rfl (List.cons_ne_nil _ _)
    (by
      intro b hb
      simp only [List.mem_singleton] at hb
      subst hb
      exact ⟨by norm_num, by norm_num⟩)

/-- C4 (confirmed): re-running the kernel on the kept boxes alone (gathered
with their scores) at the same threshold keeps everything: the result is
`range r.length`, i.e. the kept set maps back to itself unchanged — no box
in the result suppresses another box in the result. -/
theorem nms_idempotent_on_kept_set (boxes : List Box) (scores : List ℚ)
    (thr : ℚ) (h : boxes.length = scores.length) (r : List ℕ)
    (hr : nms_cpu_kernel boxes scores thr = some r) :
    nms_cpu_kernel (gather default boxes r) (gather 0 scores r) thr =
      some (List.range r.length) := by
  rw [nms_cpu_kernel_eq_suppress boxes scores thr h] at hr
  injection hr with hr
  have hre : r = suppress boxes scores thr := hr.symm
  have hglen : (gather default boxes r).length = r.length := gather_length _ _ _
  have hslen : (gather 0 scores r).length = r.length := gather_length _ _ _
  have hlen2 : (gather default boxes r).length = (gather 0 scores r).length := by
    rw [hglen, hslen]
  have hrnodup : r.Nodup := by
    rw [hre]
    exact suppress_nodup boxes scores thr
  have hfar : ∀ a b : ℕ, a < (gather default boxes r).length →
      b < (gather default boxes r).length → a ≠ b →
      ovr ((gather default boxes r).getD a default)
        ((gather default boxes r).getD b default) < thr := by
    intro a b ha hb hab
    rw [hglen] at ha hb
    rw [gather_getD _ _ _ _ ha, gather_getD _ _ _ _ hb]
    have hma : r.getD a 0 ∈ suppress boxes scores thr := by
      rw [← hre]
      exact getD_mem ha
    have hmb : r.getD b 0 ∈ suppress boxes scores thr := by
      rw [← hre]
      exact getD_mem hb
    exact suppress_pairs_far boxes scores thr h hma hmb
      (nodup_getD_inj hrnodup ha hb hab)
  rw [nms_cpu_kernel_eq_suppress _ _ _ hlen2,
    suppress_eq_range_of_far _ _ _ hlen2 hfar, hglen]

/-- Witness for C4 at a concrete input whose kept set is `[0]`. -/
theorem nms_idempotent_on_kept_set_witness :
    nms_cpu_kernel (gather default [⟨0, 0, 1, 1⟩] [0]) (gather 0 [1] [0]) (1 / 2) =
      some (List.range ([0] : List ℕ).length) :=
  nms_idempotent_on_kept_set [⟨0, 0, 1, 1⟩] [1] (1 / 2) rfl [0]
    (by norm_num [nms_cpu_kernel, outerLoop, innerLoop, argsortDesc,
      keptIndices, ovr, inter, area, min_def, max_def, List.range_succ])

lemma nms_single_box (b : Box) (s t : ℚ) :
    nms_cpu_kernel [b] [s] t = some [0] := by
  simp [nms_cpu_kernel, outerLoop, innerLoop, argsortDesc, keptIndices,
    List.range_succ]

lemma nms_two_boxes (b0 b1 : Box) (s0 s1 t : ℚ) :
    nms_cpu_kernel [b0, b1] [s0, s1] t =
      some (if s1 ≤ s0 then if t ≤ ovr b0 b1 then [0] else [0, 1]
            else if t ≤ ovr b1 b0 then [1] else [0, 1]) := by
  by_cases hs : s1 ≤ s0
  · by_cases ht' : t ≤ ovr b0 b1
    · simp [nms_cpu_kernel, outerLoop, innerLoop, argsortDesc, keptIndices,
        List.range_succ, hs, ht']
    · simp [nms_cpu_kernel, outerLoop, innerLoop, argsortDesc, keptIndices,
        List.range_succ, hs, ht']
  · by_cases ht' : t ≤ ovr b1 b0
    · simp [nms_cpu_kernel, outerLoop, innerLoop, argsortDesc, keptIndices,
        List.range_succ, hs, ht']
    · simp [nms_cpu_kernel, outerLoop, innerLoop, argsortDesc, keptIndices,
        List.range_succ, hs, ht']

/-- C3 counterexample: kept-set size is NOT monotone in the threshold.
With boxes a = (0,-4,19,5), b = (0,0,19,9), c = (0,0,9,9), d = (10,0,19,9)
and descending scores, the thresholds 2/5 ≤ 1/2 (both in [0,1]) give kept
sets of sizes 3 and 2: raising the threshold SHRANK the kept set. -/
theorem kept_size_monotonicity_counterexample :
    ((0 : ℚ) ≤ 2 / 5 ∧ (2 / 5 : ℚ) ≤ 1 / 2 ∧ (1 / 2 : ℚ) ≤ 1) ∧
      nms_cpu_kernel [⟨0, -4, 19, 5⟩, ⟨0, 0, 19, 9⟩, ⟨0, 0, 9, 9⟩, ⟨10, 0, 19, 9⟩]
        [9 / 10, 8 / 10, 7 / 10, 6 / 10] (2 / 5) = some [0, 2, 3] ∧
      nms_cpu_kernel [⟨0, -4, 19, 5⟩, ⟨0, 0, 19, 9⟩, ⟨0, 0, 9, 9⟩, ⟨10, 0, 19, 9⟩]
        [9 / 10, 8 / 10, 7 / 10, 6 / 10] (1 / 2) = some [0, 1] ∧
      ([0, 1] : List ℕ).length < ([0, 2, 3] : List ℕ).length := by
  refine ⟨⟨by norm_num, by norm_num, by norm_num⟩, ?_, ?_, by norm_num⟩
  · norm_num [nms_cpu_kernel, outerLoop, innerLoop, argsortDesc, keptIndices,
      ovr, inter, area, min_def, max_def, List.range_succ]
  · norm_num [nms_cpu_kernel, outerLoop, innerLoop, argsortDesc, keptIndices,
      ovr, inter, area, min_def, max_def, List.range_succ]

/-- C3 (amended): threshold monotonicity of the kept-set size fails in
general (see the four-box counterexample); it does hold for inputs with at
most two boxes, where a single suppression test decides the result. -/
theorem kept_size_monotone_of_length_le_two (boxes : List Box)
    (scores : List ℚ) (t1 t2 : ℚ) (r1 r2 : List ℕ) (hlen : boxes.length ≤ 2)
    (h : boxes.length = scores.length) (ht : t1 ≤ t2)
    (h1 : nms_cpu_kernel boxes scores t1 = some r1)
    (h2 : nms_cpu_kernel boxes scores t2 = some r2) :
    r1.length ≤ r2.length := by
  rcases boxes with _ | ⟨b0, boxes⟩
  · have e1 : nms_cpu_kernel [] scores t1 = some [] := rfl
    have e2 : nms_cpu_kernel [] scores t2 = some [] := rfl
    rw [e1] at h1
    rw [e2] at h2
    injection h1 with h1
    injection h2 with h2
    subst h1
    subst h2
    simp
  · rcases boxes with _ | ⟨b1, boxes⟩
    · rcases scores with _ | ⟨s0, scores⟩
      · simp at h
      · rcases scores with _ | ⟨s1, scores⟩
        · rw [nms_single_box b0 s0 t1] at h1
          rw [nms_single_box b0 s0 t2] at h2
          injection h1 with h1
          injection h2 with h2
          subst h1
          subst h2
          simp
        · simp at h
    · rcases boxes with _ | ⟨b2, boxes⟩
      · rcases scores with _ | ⟨s0, scores⟩
        · simp at h
        rcases scores with _ | ⟨s1, scores⟩
        · simp at h
        rcases scores with _ | ⟨s2, scores⟩
        · rw [nms_two_boxes b0 b1 s0 s1 t1] at h1
          rw [nms_two_boxes b0 b1 s0 s1 t2] at h2
          injection h1 with h1
          injection h2 with h2
          subst h1
          subst h2
          by_cases hs : s1 ≤ s0
          · simp only [if_pos hs]
            by_cases hb : t2 ≤ ovr b0 b1
            · have hbA : t1 ≤ ovr b0 b1 := le_trans ht hb
              simp [hb, hbA]
            · simp only [if_neg hb]
              by_cases hc : t1 ≤ ovr b0 b1 <;> simp [hc]
          · simp only [if_neg hs]
            by_cases hb : t2 ≤ ovr b1 b0
            · have hbA : t1 ≤ ovr b1 b0 := le_trans ht hb
              simp [hb, hbA]
            · simp only [if_neg hb]
              by_cases hc : t1 ≤ ovr b1 b0 <;> simp [hc]
        · simp at h
      · simp at hlen

/-- Witness for C3 (amended) at a concrete one-box input. -/
theorem kept_size_monotone_of_length_le_two_witness :
    ([0] : List ℕ).length ≤ ([0] : List ℕ).length :=
  kept_size_monotone_of_length_le_two [⟨0, 0, 1, 1⟩] [1] 0 1 [0] [0]
    (by simp) rfl (by norm_num)
    (by norm_num [nms_cpu_kernel, outerLoop, innerLoop, argsortDesc,
      keptIndices, ovr, inter, area, min_def, max_def, List.range_succ])
    (by norm_num [nms_cpu_kernel, outerLoop, innerLoop, argsortDesc,
      keptIndices, ovr, inter, area, min_def, max_def, List.range_succ])
